import Mathlib

/-!
Shallow embedding of the article-scraper repository (two variants:
`main.js`, the multi-page variant, and the unnamed single-page
"ultra-low-RAM" variant) together with proofs about the embedded
definitions.  JavaScript strings are modelled as `List Char`; the
effectful puppeteer calls are modelled by an explicit trace of events and
an oracle giving the outcome of each navigation.
-/

namespace Scraper

/-- The set of characters matched by the JavaScript regular-expression
class backslash-s (and removed by `String.prototype.trim`). -/
def isJsWs (c : Char) : Bool :=
  [' ', '\t', '\n', '\x0b', '\x0c', '\r', '\u00a0', '\u1680', '\u2000',
   '\u2001', '\u2002', '\u2003', '\u2004', '\u2005', '\u2006', '\u2007',
   '\u2008', '\u2009', '\u200a', '\u2028', '\u2029', '\u202f', '\u205f',
   '\u3000', '\ufeff'].contains c

/-- Helper for the whitespace collapse: the flag records whether the
previously consumed character was whitespace (i.e. we are inside a
whitespace run whose single replacement space has already been output). -/
def collapseAux : Bool → List Char → List Char
  | _, [] => []
  | prevWs, c :: rest =>
    if isJsWs c then
      if prevWs then collapseAux true rest
      else ' ' :: collapseAux true rest
    else c :: collapseAux false rest

/-- `textContent.replace` of every maximal backslash-s-plus run by a single
space, as in both variants' record construction. -/
def collapseRuns (l : List Char) : List Char := collapseAux false l

/-- Remove leading whitespace (first half of `String.prototype.trim`). -/
def dropLeadingWs (l : List Char) : List Char := l.dropWhile isJsWs

/-- Remove trailing whitespace (second half of `String.prototype.trim`). -/
def dropTrailingWs (l : List Char) : List Char :=
  (l.reverse.dropWhile isJsWs).reverse

/-- `String.prototype.trim`. -/
def trimWs (l : List Char) : List Char := dropTrailingWs (dropLeadingWs l)

/-- `article.textContent.replace(backslash-s-plus, ' ').trim()` — the
whitespace normalization applied to article text in both variants. -/
def normalizeContent (l : List Char) : List Char := trimWs (collapseRuns l)

/-- `true` iff the list has no two adjacent whitespace characters,
i.e. no whitespace run of length two or more. -/
def noWsRun : List Char → Bool
  | [] => true
  | [_] => true
  | a :: b :: rest => (!(isJsWs a && isJsWs b)) && noWsRun (b :: rest)

/-- Every whitespace character of the list is a plain space. -/
def spacesOnly (l : List Char) : Bool := l.all (fun c => !isJsWs c || c = ' ')

/-- The persisted-content invariant: no whitespace run of length two or
more, and no leading or trailing whitespace. -/
def cleanWs (l : List Char) : Bool :=
  noWsRun l && l.head?.all (fun c => !isJsWs c) &&
    l.getLast?.all (fun c => !isJsWs c)

/-- ASCII lower-casing, the effect of the `i` flag on the letters of the
skip regular expression in the single-page variant. -/
def lowerChar (c : Char) : Char :=
  if 'A' ≤ c ∧ c ≤ 'Z' then Char.ofNat (c.toNat + 32) else c

/-! ## Data model -/

/-- Result of `reader.parse()` (the Readability boundary): `title` and
`siteName` may be `null`. -/
structure Article where
  title : Option (List Char)
  textContent : List Char
  siteName : Option (List Char)
  deriving DecidableEq, Repr

/-- The persisted record shape, common to both variants. -/
structure Record where
  url : List Char
  title : Option (List Char)
  content : List Char
  site_name : Option (List Char)
  scraped_at : List Char
  deriving DecidableEq, Repr

/-- The entry object literal built from a parsed article in both variants:
`content` is the whitespace-normalized `textContent`, `scraped_at` the
current timestamp. -/
def buildRecord (url : List Char) (a : Article) (now : List Char) : Record :=
  { url := url
    title := a.title
    content := normalizeContent a.textContent
    site_name := a.siteName
    scraped_at := now }

/-- Abstract page-level effects performed while processing a URL. -/
inductive Event where
  | newPage
  | setUserAgent
  | setViewport
  | installGate
  | goto
  | getContent
  | closePage
  deriving DecidableEq, Repr

/-- Outcome of the navigate-and-extract part of an iteration: `err` models
an exception thrown inside the per-URL `try` block (navigation timeout,
navigation error, or any other failure there); `ok art` models a completed
navigation with `art` the result of the Readability parse (`none` when the
parse returned `null`). -/
inductive FetchOutcome where
  | err
  | ok (article : Option Article)
  deriving DecidableEq, Repr

/-! ## URL filters -/

/-- The twelve literal suffixes tested with `url.endsWith` in `main.js`. -/
def mainExts : List (List Char) :=
  [".png", ".png/", ".jpg", ".jpg/", ".svg", ".svg/", ".jpeg", ".jpeg/",
   ".gif", ".gif/", ".pdf", ".pdf/"].map String.toList

/-- The extension test of `main.js`: case-SENSITIVE suffix match. -/
def extSkipLower (url : List Char) : Bool :=
  mainExts.any (fun e => e.isSuffixOf url)

/-- The whole skip test of `main.js`'s `scrapeUrl` (extension checks, then
`url.length < 3`). -/
def mainSkips (url : List Char) : Bool :=
  extSkipLower url || decide (url.length < 3)

/-- The extension test of the single-page variant: the case-insensitive
regular expression `.(png|jpg|jpeg|svg|gif|pdf)(/)?$` applied to `url`. -/
def extSkipCI (url : List Char) : Bool :=
  mainExts.any (fun e => e.isSuffixOf (url.map lowerChar))

/-- The whole skip test of the single-page variant's `scrapeUrl`
(`url.length < 5`, then the case-insensitive extension regex). -/
def part0Skips (url : List Char) : Bool :=
  decide (url.length < 5) || extSkipCI url

/-! ## Per-URL processing -/

/-- Events of a `main.js` iteration whose `try` block threw during
navigation: the `finally` still closes the page. -/
def mainFailTrace : List Event :=
  [.newPage, .setUserAgent, .setViewport, .goto, .closePage]

/-- Events of a `main.js` iteration that navigated and read the page
content; the `finally` closes the page. -/
def mainFullTrace : List Event :=
  [.newPage, .setUserAgent, .setViewport, .goto, .getContent, .closePage]

/-- `scrapeUrl` of `main.js`: skip checks, then open a page, set
user agent and viewport, navigate, extract, and close the page in a
`finally`; returns the entry (or `null`) and the trace of page effects. -/
def scrapeUrlMain (url : List Char) (fetch : FetchOutcome) (now : List Char) :
    Option Record × List Event :=
  if mainSkips url then (none, [])
  else
    match fetch with
    | .err => (none, mainFailTrace)
    | .ok none => (none, mainFullTrace)
    | .ok (some a) =>
      (if a.textContent.length > 200 then some (buildRecord url a now)
       else none, mainFullTrace)

/-- `scrapeUrl` of the single-page variant: skip checks, then navigate the
shared page and extract; no page is opened or closed here. -/
def scrapeUrlPart0 (url : List Char) (fetch : FetchOutcome) (now : List Char) :
    Option Record × List Event :=
  if part0Skips url then (none, [])
  else
    match fetch with
    | .err => (none, [.goto])
    | .ok none => (none, [.goto, .getContent])
    | .ok (some a) =>
      (if a.textContent.length < 200 then none
       else some (buildRecord url a now), [.goto, .getContent])

/-! ## Driving loops -/

/-- The records appended by `main.js`'s driving loop over an already
loaded URL list; `fetch` gives each navigation's outcome and `clock` the
timestamp observed while building that URL's entry. -/
def runMain (urls : List (List Char)) (fetch : List Char → FetchOutcome)
    (clock : List Char → List Char) : List Record :=
  match urls with
  | [] => []
  | u :: rest =>
    match (scrapeUrlMain u (fetch u) (clock u)).1 with
    | some r => r :: runMain rest fetch clock
    | none => runMain rest fetch clock

/-- Concatenated page-effect trace of `main.js`'s driving loop. -/
def runMainTrace (urls : List (List Char)) (fetch : List Char → FetchOutcome)
    (clock : List Char → List Char) : List Event :=
  match urls with
  | [] => []
  | u :: rest =>
    (scrapeUrlMain u (fetch u) (clock u)).2 ++ runMainTrace rest fetch clock

/-- The records appended by the single-page variant's `for await` loop:
each line is trimmed, blank lines are skipped. -/
def runPart0Records (lines : List (List Char))
    (fetch : List Char → FetchOutcome) (clock : List Char → List Char) :
    List Record :=
  match lines with
  | [] => []
  | ln :: rest =>
    if (trimWs ln).isEmpty then runPart0Records rest fetch clock
    else
      match (scrapeUrlPart0 (trimWs ln) (fetch (trimWs ln))
              (clock (trimWs ln))).1 with
      | some r => r :: runPart0Records rest fetch clock
      | none => runPart0Records rest fetch clock

/-- Page-effect trace of the single-page variant's loop body. -/
def part0LoopTrace (lines : List (List Char))
    (fetch : List Char → FetchOutcome) (clock : List Char → List Char) :
    List Event :=
  match lines with
  | [] => []
  | ln :: rest =>
    if (trimWs ln).isEmpty then part0LoopTrace rest fetch clock
    else
      (scrapeUrlPart0 (trimWs ln) (fetch (trimWs ln)) (clock (trimWs ln))).2
        ++ part0LoopTrace rest fetch clock

/-- Full page-effect trace of the single-page variant: the shared page is
opened, its user agent set and resource blocking enabled before the loop. -/
def runPart0Trace (lines : List (List Char))
    (fetch : List Char → FetchOutcome) (clock : List Char → List Char) :
    List Event :=
  Event.newPage :: Event.setUserAgent :: Event.installGate ::
    part0LoopTrace lines fetch clock

/-! ## Resource gate -/

/-- Decision taken by the request-interception handler. -/
inductive ReqAction where
  | abort
  | cont
  deriving DecidableEq, Repr

/-- The blocked resource types of `enableResourceBlocking`. -/
def blockedTypes : List (List Char) :=
  ["image".toList, "stylesheet".toList, "font".toList, "media".toList,
   "websocket".toList]

/-- The request-interception handler of `enableResourceBlocking`: abort a
request whose resource type is in the blocked list, else continue it. -/
def gateAction (t : List Char) : ReqAction :=
  if t ∈ blockedTypes then .abort else .cont

/-! ## Event-trace utilities -/

/-- Whether an event occurs in a trace. -/
def hasEvent (e : Event) : List Event → Bool
  | [] => false
  | x :: rest => if x = e then true else hasEvent e rest

/-- Number of occurrences of an event in a trace. -/
def countEvent (e : Event) : List Event → Nat
  | [] => 0
  | x :: rest => (if x = e then 1 else 0) + countEvent e rest

/-- `true` iff every `goto` in the trace is preceded by an earlier
occurrence of `e` (scanning left to right, `e` is seen before the first
`goto`; vacuously true when the trace has no `goto`). -/
def beforeGoto (e : Event) : List Event → Bool
  | [] => true
  | x :: rest =>
    if x = Event.goto then false
    else if x = e then true
    else beforeGoto e rest

/-! ## JSON serialization — `JSON.stringify(data)` on the entry object,
and a parser for the JSONL lines it emits -/

/-- Lower-case hexadecimal digit, as emitted by `JSON.stringify`'s
`\u00..` escapes. -/
def hexDig (n : Nat) : Char :=
  if n < 10 then Char.ofNat (48 + n) else Char.ofNat (87 + n)

/-- Escaping of one character inside a JSON string, per ECMA-262
`QuoteJSONString`: quote, backslash, the five short control escapes, and
`\u00..` for the remaining control characters; all others unchanged. -/
def escapeChar (c : Char) : List Char :=
  if c = '"' then ['\\', '"']
  else if c = '\\' then ['\\', '\\']
  else if c = '\x08' then ['\\', 'b']
  else if c = '\x0c' then ['\\', 'f']
  else if c = '\n' then ['\\', 'n']
  else if c = '\r' then ['\\', 'r']
  else if c = '\t' then ['\\', 't']
  else if c.toNat < 32 then
    ['\\', 'u', '0', '0', hexDig (c.toNat / 16), hexDig (c.toNat % 16)]
  else [c]

/-- Escaping of a whole string body. -/
def escapeList (s : List Char) : List Char := s.flatMap escapeChar

/-- A JSON string literal. -/
def renderString (s : List Char) : List Char := '"' :: (escapeList s ++ ['"'])

/-- The JSON values occurring in an entry object: its fields are strings
or `null` (for a missing `title` or `siteName`). -/
inductive JVal where
  | nullv
  | strv (s : List Char)
  deriving DecidableEq, Repr

/-- Serialization of one field value. -/
def renderVal : JVal → List Char
  | .nullv => ['n', 'u', 'l', 'l']
  | .strv s => renderString s

/-- Serialization of one `"key":value` pair. -/
def renderPair (p : List Char × JVal) : List Char :=
  renderString p.1 ++ ':' :: renderVal p.2

/-- Comma-separated serialization of an object's fields. -/
def renderFields : List (List Char × JVal) → List Char
  | [] => []
  | [p] => renderPair p
  | p :: q :: rest => renderPair p ++ ',' :: renderFields (q :: rest)

/-- What follows the first rendered pair in a rendered field list: empty
for a singleton, a comma and the remaining pairs otherwise. -/
def renderFieldsTail : List (List Char × JVal) → List Char
  | [] => []
  | q :: fs => ',' :: renderFields (q :: fs)

/-- Serialization of a flat JSON object (brace-delimited). -/
def renderObj (fs : List (List Char × JVal)) : List Char :=
  '\x7b' :: (renderFields fs ++ ['\x7d'])

/-- A nullable string, as serialized by `JSON.stringify`. -/
def optJVal : Option (List Char) → JVal
  | none => .nullv
  | some s => .strv s

/-- The fields of `JSON.stringify(data)` for an entry object, in the
insertion order of the object literal. -/
def recordFields (r : Record) : List (List Char × JVal) :=
  [("url".toList, .strv r.url),
   ("title".toList, optJVal r.title),
   ("content".toList, .strv r.content),
   ("site_name".toList, optJVal r.site_name),
   ("scraped_at".toList, .strv r.scraped_at)]

/-- `JSON.stringify(data)` for an entry object. -/
def stringifyRecord (r : Record) : List Char := renderObj (recordFields r)

/-- The line appended to the output file: `JSON.stringify(data) + '\n'`. -/
def sinkLine (r : Record) : List Char := stringifyRecord r ++ ['\n']

/-- Value of a hexadecimal digit character. -/
def hexVal (c : Char) : Option Nat :=
  if '0' ≤ c ∧ c ≤ '9' then some (c.toNat - 48)
  else if 'a' ≤ c ∧ c ≤ 'f' then some (c.toNat - 87)
  else if 'A' ≤ c ∧ c ≤ 'F' then some (c.toNat - 55)
  else none

/-- Parse four hexadecimal digits into a code point. -/
def parseHex4 : List Char → Option (Nat × List Char)
  | h1 :: h2 :: h3 :: h4 :: rest =>
    match hexVal h1, hexVal h2, hexVal h3, hexVal h4 with
    | some a, some b, some c, some d =>
      some ((((a * 16 + b) * 16 + c) * 16 + d), rest)
    | _, _, _, _ => none
  | _ => none

/-- Decode one escape sequence (the input starts after the backslash);
returns the decoded character and the remaining input. -/
def unescapeStep : List Char → Option (Char × List Char)
  | [] => none
  | e :: rest =>
    if e = '"' then some ('"', rest)
    else if e = '\\' then some ('\\', rest)
    else if e = 'b' then some ('\x08', rest)
    else if e = 'f' then some ('\x0c', rest)
    else if e = 'n' then some ('\n', rest)
    else if e = 'r' then some ('\r', rest)
    else if e = 't' then some ('\t', rest)
    else if e = 'u' then
      match parseHex4 rest with
      | some (n, rest2) => some (Char.ofNat n, rest2)
      | none => none
    else none

/-- Parse the body of a JSON string literal (after the opening quote),
undoing the escapes; returns the decoded string and the input remaining
after the closing quote.  `fuel` bounds the number of decoded
characters. -/
def parseStringBody : Nat → List Char → Option (List Char × List Char)
  | 0, _ => none
  | fuel + 1, l =>
    match l with
    | [] => none
    | c :: rest =>
      if c = '"' then some ([], rest)
      else if c = '\\' then
        match unescapeStep rest with
        | some (d, rest2) =>
          (parseStringBody fuel rest2).map (fun p => (d :: p.1, p.2))
        | none => none
      else (parseStringBody fuel rest).map (fun p => (c :: p.1, p.2))

/-- Parse one JSON field value (string or `null`). -/
def parseVal (l : List Char) : Option (JVal × List Char) :=
  match l with
  | 'n' :: 'u' :: 'l' :: 'l' :: rest => some (.nullv, rest)
  | '"' :: rest =>
    (parseStringBody rest.length rest).map (fun p => (.strv p.1, p.2))
  | _ => none

/-- Parse one `"key":value` pair. -/
def parsePair (l : List Char) : Option ((List Char × JVal) × List Char) :=
  match l with
  | '"' :: rest =>
    match parseStringBody rest.length rest with
    | some (k, ':' :: r2) =>
      match parseVal r2 with
      | some (v, r3) => some ((k, v), r3)
      | none => none
    | _ => none
  | _ => none

/-- Parse a non-empty comma-separated field list up to (and consuming)
the closing brace; `fuel` bounds the number of fields. -/
def parseFieldsAux : Nat → List Char → Option (List (List Char × JVal) × List Char)
  | 0, _ => none
  | fuel + 1, l =>
    match parsePair l with
    | none => none
    | some (kv, r1) =>
      match r1 with
      | ',' :: r2 =>
        match parseFieldsAux fuel r2 with
        | some (fs, r3) => some (kv :: fs, r3)
        | none => none
      | '\x7d' :: r2 => some ([kv], r2)
      | _ => none

/-- Parse a flat JSON object; returns its fields and the remaining
input. -/
def parseObj (l : List Char) : Option (List (List Char × JVal) × List Char) :=
  match l with
  | '\x7b' :: '\x7d' :: rest => some ([], rest)
  | '\x7b' :: rest => parseFieldsAux rest.length rest
  | _ => none

/-- Number of occurrences of a character in a list. -/
def countChar (c : Char) : List Char → Nat
  | [] => 0
  | x :: rest => (if x = c then 1 else 0) + countChar c rest

/-! ## Whitespace lemmas -/

theorem noWsRun_tail {c : Char} {l : List Char} (h : noWsRun (c :: l) = true) :
    noWsRun l = true := by
  cases l with
  | nil => rfl
  | cons b rest =>
    simp only [noWsRun, Bool.and_eq_true] at h
    exact h.2

theorem noWsRun_cons {a : Char} {l : List Char} (h1 : noWsRun l = true)
    (h2 : l.head?.all (fun c => !(isJsWs a && isJsWs c)) = true) :
    noWsRun (a :: l) = true := by
  cases l with
  | nil => rfl
  | cons b rest =>
    simp only [List.head?_cons, Option.all_some] at h2
    simp only [noWsRun, Bool.and_eq_true]
    exact ⟨h2, h1⟩

theorem collapseAux_true_head (l : List Char) :
    ((collapseAux true l).head?.all (fun c => !isJsWs c)) = true := by
  induction l with
  | nil => rfl
  | cons c rest ih =>
    by_cases h : isJsWs c = true
    · simpa [collapseAux, h] using ih
    · simp only [Bool.not_eq_true] at h
      simp [collapseAux, h]

theorem collapseAux_noWsRun (l : List Char) :
    ∀ b, noWsRun (collapseAux b l) = true := by
  induction l with
  | nil => intro b; rfl
  | cons c rest ih =>
    intro b
    by_cases h : isJsWs c = true
    · cases b with
      | true => simpa [collapseAux, h] using ih true
      | false =>
        simp only [collapseAux, h, if_true, Bool.false_eq_true, if_false]
        refine noWsRun_cons (ih true) ?_
        have hh := collapseAux_true_head rest
        cases hcase : (collapseAux true rest).head? with
        | none => simp
        | some d =>
          rw [hcase] at hh
          simp only [Option.all_some, Bool.not_eq_true'] at hh
          simp [hh]
    · simp only [Bool.not_eq_true] at h
      simp only [collapseAux, h, Bool.false_eq_true, if_false]
      refine noWsRun_cons (ih false) ?_
      cases hcase : (collapseAux false rest).head? with
      | none => simp
      | some d => simp [h]

theorem collapseAux_spacesOnly (l : List Char) :
    ∀ b, spacesOnly (collapseAux b l) = true := by
  induction l with
  | nil => intro b; rfl
  | cons c rest ih =>
    intro b
    by_cases h : isJsWs c = true
    · cases b with
      | true => simpa [collapseAux, h] using ih true
      | false =>
        simp only [collapseAux, h, if_true, Bool.false_eq_true, if_false]
        unfold spacesOnly
        rw [List.all_cons]
        have hrest := ih true
        unfold spacesOnly at hrest
        rw [hrest]
        decide
    · simp only [Bool.not_eq_true] at h
      simp only [collapseAux, h, Bool.false_eq_true, if_false]
      simp only [spacesOnly, List.all_cons, Bool.and_eq_true]
      exact ⟨by simp [h], ih false⟩

theorem noWsRun_dropWhile (l : List Char) (h : noWsRun l = true) :
    noWsRun (l.dropWhile isJsWs) = true := by
  induction l with
  | nil => simpa using h
  | cons c rest ih =>
    rw [List.dropWhile_cons]
    by_cases hc : isJsWs c = true
    · simp only [hc, if_true]
      exact ih (noWsRun_tail h)
    · simp only [Bool.not_eq_true] at hc
      simp only [hc, Bool.false_eq_true, if_false]
      exact h

theorem head_dropWhile_ws (l : List Char) :
    ((l.dropWhile isJsWs).head?.all (fun c => !isJsWs c)) = true := by
  induction l with
  | nil => rfl
  | cons c rest ih =>
    rw [List.dropWhile_cons]
    by_cases hc : isJsWs c = true
    · simpa [hc] using ih
    · simp only [Bool.not_eq_true] at hc
      simp [hc]

theorem getLast?_dropWhile_ws (l : List Char) (h : l.dropWhile isJsWs ≠ []) :
    (l.dropWhile isJsWs).getLast? = l.getLast? := by
  induction l with
  | nil => simp at h
  | cons c rest ih =>
    rw [List.dropWhile_cons] at h ⊢
    by_cases hc : isJsWs c = true
    · simp only [hc, if_true] at h ⊢
      have hrest : rest ≠ [] := by
        intro he
        subst he
        simp [List.dropWhile] at h
      rw [ih h]
      cases rest with
      | nil => exact absurd rfl hrest
      | cons d r => rw [List.getLast?_cons_cons]
    · simp only [Bool.not_eq_true] at hc
      simp [hc]

theorem noWsRun_snoc (l : List Char) (c : Char) (h1 : noWsRun l = true)
    (h2 : l.getLast?.all (fun a => !(isJsWs a && isJsWs c)) = true) :
    noWsRun (l ++ [c]) = true := by
  induction l with
  | nil => rfl
  | cons a rest ih =>
    cases rest with
    | nil =>
      simp only [List.getLast?_singleton, Option.all_some] at h2
      simp [noWsRun, h2]
    | cons b r =>
      have h1' : noWsRun (b :: r) = true := noWsRun_tail h1
      have hab : (!(isJsWs a && isJsWs b)) = true := by
        simp only [noWsRun, Bool.and_eq_true] at h1
        exact h1.1
      have h2' : ((b :: r).getLast?.all
          (fun x => !(isJsWs x && isJsWs c))) = true := by
        rwa [List.getLast?_cons_cons] at h2
      have := ih h1' h2'
      simp only [List.cons_append] at this ⊢
      simp only [noWsRun, Bool.and_eq_true]
      exact ⟨hab, by simpa using this⟩

theorem noWsRun_reverse (l : List Char) (h : noWsRun l = true) :
    noWsRun l.reverse = true := by
  induction l with
  | nil => rfl
  | cons c rest ih =>
    rw [List.reverse_cons]
    refine noWsRun_snoc _ _ (ih (noWsRun_tail h)) ?_
    rw [List.getLast?_reverse]
    cases rest with
    | nil => rfl
    | cons d r =>
      simp only [noWsRun, Bool.and_eq_true] at h
      have hdc : (!(isJsWs d && isJsWs c)) = true := by
        have := h.1
        cases hd : isJsWs d <;> cases hcc : isJsWs c <;>
          simp [hd, hcc] at this ⊢
      simpa using hdc

theorem cleanWs_normalizeContent (l : List Char) :
    cleanWs (normalizeContent l) = true := by
  have h0 : noWsRun (collapseRuns l) = true := collapseAux_noWsRun l false
  have h1 : noWsRun (dropLeadingWs (collapseRuns l)) = true :=
    noWsRun_dropWhile _ h0
  have h1h : ((dropLeadingWs (collapseRuns l)).head?.all
      (fun c => !isJsWs c)) = true := head_dropWhile_ws _
  have h2 : noWsRun ((dropLeadingWs (collapseRuns l)).reverse.dropWhile
      isJsWs) = true := noWsRun_dropWhile _ (noWsRun_reverse _ h1)
  have h2h : (((dropLeadingWs (collapseRuns l)).reverse.dropWhile
      isJsWs).head?.all (fun c => !isJsWs c)) = true := head_dropWhile_ws _
  show cleanWs (((dropLeadingWs (collapseRuns l)).reverse.dropWhile
      isJsWs).reverse) = true
  unfold cleanWs
  have hA : noWsRun ((dropLeadingWs (collapseRuns l)).reverse.dropWhile
      isJsWs).reverse = true := noWsRun_reverse _ h2
  have hB : (((dropLeadingWs (collapseRuns l)).reverse.dropWhile
      isJsWs).reverse.head?.all (fun c => !isJsWs c)) = true := by
    rw [List.head?_reverse]
    by_cases hne : (dropLeadingWs (collapseRuns l)).reverse.dropWhile
        isJsWs = []
    · simp [hne]
    · rw [getLast?_dropWhile_ws _ hne, List.getLast?_reverse]
      exact h1h
  have hC : (((dropLeadingWs (collapseRuns l)).reverse.dropWhile
      isJsWs).reverse.getLast?.all (fun c => !isJsWs c)) = true := by
    rw [List.getLast?_reverse]
    exact h2h
  rw [Bool.and_eq_true, Bool.and_eq_true]
  exact ⟨⟨hA, hB⟩, hC⟩

theorem spacesOnly_dropWhile (l : List Char) (h : spacesOnly l = true) :
    spacesOnly (l.dropWhile isJsWs) = true := by
  simp only [spacesOnly, List.all_eq_true] at h ⊢
  intro x hx
  exact h x ((List.dropWhile_sublist isJsWs).subset hx)

theorem spacesOnly_reverse (l : List Char) (h : spacesOnly l = true) :
    spacesOnly l.reverse = true := by
  simp only [spacesOnly, List.all_eq_true, List.mem_reverse] at h ⊢
  exact h

theorem spacesOnly_normalizeContent (l : List Char) :
    spacesOnly (normalizeContent l) = true := by
  have h0 : spacesOnly (collapseRuns l) = true := collapseAux_spacesOnly l false
  exact spacesOnly_reverse _ (spacesOnly_dropWhile _
    (spacesOnly_reverse _ (spacesOnly_dropWhile _ h0)))

theorem collapseAux_true_of_head (l : List Char)
    (h : (l.head?.all (fun c => !isJsWs c)) = true) :
    collapseAux true l = collapseAux false l := by
  cases l with
  | nil => rfl
  | cons c rest =>
    have hc : isJsWs c = false := by simpa using h
    simp [collapseAux, hc]

theorem collapseRuns_eq_self (m : List Char) (h1 : noWsRun m = true)
    (h2 : spacesOnly m = true) : collapseRuns m = m := by
  unfold collapseRuns
  induction m with
  | nil => rfl
  | cons c rest ih =>
    have h1' : noWsRun rest = true := noWsRun_tail h1
    have h2' : spacesOnly rest = true := by
      simp only [spacesOnly, List.all_cons, Bool.and_eq_true] at h2
      exact h2.2
    by_cases hc : isJsWs c = true
    · have hcsp : c = ' ' := by
        simp only [spacesOnly, List.all_cons, Bool.and_eq_true] at h2
        have := h2.1
        simp [hc] at this
        exact this
      cases rest with
      | nil => simp [collapseAux, hc, hcsp]
      | cons d r =>
        have hd : isJsWs d = false := by
          simp only [noWsRun, Bool.and_eq_true] at h1
          have := h1.1
          cases hdd : isJsWs d
          · rfl
          · simp [hc, hdd] at this
        have e0 : collapseAux false (c :: d :: r) =
            ' ' :: collapseAux true (d :: r) := by
          simp [collapseAux, hc]
        have e1 : collapseAux true (d :: r) = collapseAux false (d :: r) :=
          collapseAux_true_of_head _ (by simp [hd])
        rw [e0, e1, ih h1' h2', hcsp]
    · simp only [Bool.not_eq_true] at hc
      simp only [collapseAux, hc, Bool.false_eq_true, if_false]
      rw [ih h1' h2']

theorem trimWs_eq_self (m : List Char)
    (h1 : (m.head?.all (fun c => !isJsWs c)) = true)
    (h2 : (m.getLast?.all (fun c => !isJsWs c)) = true) : trimWs m = m := by
  unfold trimWs dropLeadingWs dropTrailingWs
  have e1 : m.dropWhile isJsWs = m := by
    cases m with
    | nil => rfl
    | cons c rest =>
      rw [List.dropWhile_cons]
      have hc : isJsWs c = false := by simpa using h1
      simp [hc]
  rw [e1]
  have e2 : m.reverse.dropWhile isJsWs = m.reverse := by
    have hrh : (m.reverse.head?.all (fun c => !isJsWs c)) = true := by
      rw [List.head?_reverse]
      exact h2
    cases hr : m.reverse with
    | nil => rfl
    | cons c rest =>
      rw [hr] at hrh
      have hc : isJsWs c = false := by simpa using hrh
      rw [List.dropWhile_cons]
      simp [hc]
  rw [e2, List.reverse_reverse]

theorem normalizeContent_idem (l : List Char) :
    normalizeContent (normalizeContent l) = normalizeContent l := by
  have h1 := cleanWs_normalizeContent l
  have h2 := spacesOnly_normalizeContent l
  unfold cleanWs at h1
  simp only [Bool.and_eq_true] at h1
  obtain ⟨⟨ha, hb⟩, hc⟩ := h1
  show trimWs (collapseRuns (normalizeContent l)) = normalizeContent l
  rw [collapseRuns_eq_self _ ha h2, trimWs_eq_self _ hb hc]

/-! ## Record provenance -/

theorem scrapeUrlMain_some {url : List Char} {f : FetchOutcome}
    {now : List Char} {r : Record}
    (h : (scrapeUrlMain url f now).1 = some r) :
    ∃ a : Article, r = buildRecord url a now := by
  unfold scrapeUrlMain at h
  by_cases hs : mainSkips url = true
  · simp [hs] at h
  · simp only [Bool.not_eq_true] at hs
    simp only [hs, Bool.false_eq_true, if_false] at h
    cases f with
    | err => simp [mainFailTrace] at h
    | ok art =>
      cases art with
      | none => simp [mainFullTrace] at h
      | some a =>
        by_cases hl : a.textContent.length > 200
        · simp only [hl, if_true] at h
          exact ⟨a, (Option.some.injEq _ _).mp h.symm⟩
        · simp [hl] at h

theorem scrapeUrlPart0_some {url : List Char} {f : FetchOutcome}
    {now : List Char} {r : Record}
    (h : (scrapeUrlPart0 url f now).1 = some r) :
    ∃ a : Article, r = buildRecord url a now := by
  unfold scrapeUrlPart0 at h
  by_cases hs : part0Skips url = true
  · simp [hs] at h
  · simp only [Bool.not_eq_true] at hs
    simp only [hs, Bool.false_eq_true, if_false] at h
    cases f with
    | err => simp at h
    | ok art =>
      cases art with
      | none => simp at h
      | some a =>
        by_cases hl : a.textContent.length < 200
        · simp [hl] at h
        · simp only [hl, if_false] at h
          exact ⟨a, (Option.some.injEq _ _).mp h.symm⟩

theorem mem_runMain {urls : List (List Char)}
    {fetch : List Char → FetchOutcome} {clock : List Char → List Char}
    {r : Record} (h : r ∈ runMain urls fetch clock) :
    ∃ u a now, r = buildRecord u a now := by
  induction urls with
  | nil => simp [runMain] at h
  | cons u rest ih =>
    rw [runMain] at h
    cases hs : (scrapeUrlMain u (fetch u) (clock u)).1 with
    | none =>
      rw [hs] at h
      exact ih h
    | some r' =>
      rw [hs] at h
      rcases List.mem_cons.mp h with h1 | h2
      · subst h1
        obtain ⟨a, ha⟩ := scrapeUrlMain_some hs
        exact ⟨u, a, clock u, ha⟩
      · exact ih h2

theorem mem_runPart0 {lines : List (List Char)}
    {fetch : List Char → FetchOutcome} {clock : List Char → List Char}
    {r : Record} (h : r ∈ runPart0Records lines fetch clock) :
    ∃ u a now, r = buildRecord u a now := by
  induction lines with
  | nil => simp [runPart0Records] at h
  | cons ln rest ih =>
    rw [runPart0Records] at h
    by_cases he : (trimWs ln).isEmpty = true
    · simp only [he, if_true] at h
      exact ih h
    · simp only [Bool.not_eq_true] at he
      simp only [he, Bool.false_eq_true, if_false] at h
      cases hs : (scrapeUrlPart0 (trimWs ln) (fetch (trimWs ln))
          (clock (trimWs ln))).1 with
      | none =>
        rw [hs] at h
        exact ih h
      | some r' =>
        rw [hs] at h
        rcases List.mem_cons.mp h with h1 | h2
        · subst h1
          obtain ⟨a, ha⟩ := scrapeUrlPart0_some hs
          exact ⟨trimWs ln, a, clock (trimWs ln), ha⟩
        · exact ih h2

/-! ## Claim C3 -/

/-- C3: every Record appended to the Sink — by either the multi-page
(`main.js`) or the single-page pipeline — has a `content` field with no
run of two or more consecutive whitespace characters and no leading or
trailing whitespace. -/
theorem c3_record_content_clean (urls lines : List (List Char))
    (fetch : List Char → FetchOutcome) (clock : List Char → List Char)
    (r : Record)
    (h : r ∈ runMain urls fetch clock ∨ r ∈ runPart0Records lines fetch clock) :
    cleanWs r.content = true := by
  rcases h with h | h
  · obtain ⟨u, a, now, rfl⟩ := mem_runMain h
    exact cleanWs_normalizeContent _
  · obtain ⟨u, a, now, rfl⟩ := mem_runPart0 h
    exact cleanWs_normalizeContent _

set_option maxRecDepth 4000 in
theorem c3_record_content_clean_witness :
    cleanWs (buildRecord ("http://a.test/blog/post".toList)
      ⟨some ("T".toList), List.replicate 201 'a', none⟩
      ("2024-05-01T00:00:00.000Z".toList)).content = true :=
  c3_record_content_clean ["http://a.test/blog/post".toList] []
    (fun _ => .ok (some ⟨some ("T".toList), List.replicate 201 'a', none⟩))
    (fun _ => "2024-05-01T00:00:00.000Z".toList) _
    (Or.inl (by decide))

/-! ## Claim C9 -/

/-- C9 counterexample: the string `"a\t b"` without the space — i.e.
`['a', tab, 'b']` — contains no run of two or more whitespace characters
and has no leading or trailing whitespace (so trimming leaves it
unchanged), yet normalization rewrites its tab to a space, so the
normalization is NOT the identity minus trim on such strings. -/
theorem c9_counterexample :
    noWsRun ['a', '\t', 'b'] = true ∧
    trimWs ['a', '\t', 'b'] = ['a', '\t', 'b'] ∧
    normalizeContent ['a', '\t', 'b'] = ['a', ' ', 'b'] ∧
    (normalizeContent ['a', '\t', 'b'] == ['a', '\t', 'b']) = false := by
  decide

/-- C9 (amended): the normalization is idempotent — applying it twice
equals applying it once on every string; and a string free of repeated
whitespace is returned unchanged minus the leading/trailing trim provided
every whitespace character it contains is a plain space. -/
theorem c9_normalize_idempotent (l m : List Char)
    (h1 : noWsRun m = true) (h2 : spacesOnly m = true) :
    normalizeContent (normalizeContent l) = normalizeContent l ∧
    normalizeContent m = trimWs m := by
  refine ⟨normalizeContent_idem l, ?_⟩
  show trimWs (collapseRuns m) = trimWs m
  rw [collapseRuns_eq_self m h1 h2]

theorem c9_normalize_idempotent_witness :
    normalizeContent (normalizeContent ("x  y".toList)) =
      normalizeContent ("x  y".toList) ∧
    normalizeContent (" a b ".toList) = trimWs (" a b ".toList) :=
  c9_normalize_idempotent ("x  y".toList) (" a b ".toList)
    (by decide) (by decide)

/-! ## Trace helpers -/

theorem hasEvent_append (e : Event) (a b : List Event) :
    hasEvent e (a ++ b) = (hasEvent e a || hasEvent e b) := by
  induction a with
  | nil => simp [hasEvent]
  | cons x rest ih =>
    by_cases hx : x = e
    · simp [hasEvent, hx]
    · simp [hasEvent, hx, ih]

theorem scrapeUrlMain_trace_cases (url : List Char) (f : FetchOutcome)
    (now : List Char) :
    (scrapeUrlMain url f now).2 = [] ∨
    (scrapeUrlMain url f now).2 = mainFailTrace ∨
    (scrapeUrlMain url f now).2 = mainFullTrace := by
  unfold scrapeUrlMain
  by_cases hs : mainSkips url = true
  · simp [hs]
  · simp only [Bool.not_eq_true] at hs
    simp only [hs, Bool.false_eq_true, if_false]
    cases f with
    | err => simp
    | ok art => cases art <;> simp

theorem scrapeUrlPart0_trace_cases (url : List Char) (f : FetchOutcome)
    (now : List Char) :
    (scrapeUrlPart0 url f now).2 = [] ∨
    (scrapeUrlPart0 url f now).2 = [Event.goto] ∨
    (scrapeUrlPart0 url f now).2 = [Event.goto, Event.getContent] := by
  unfold scrapeUrlPart0
  by_cases hs : part0Skips url = true
  · simp [hs]
  · simp only [Bool.not_eq_true] at hs
    simp only [hs, Bool.false_eq_true, if_false]
    cases f with
    | err => simp
    | ok art => cases art <;> simp

/-! ## Claim C1 -/

set_option maxRecDepth 4000 in
/-- C1 counterexample: `main.js`'s `scrapeUrl` tests the image/PDF
extensions with case-SENSITIVE `url.endsWith`, so a URL ending in `.PNG`
— which matches the claim's case-insensitive pattern, as the first
conjunct shows — is NOT skipped there: the page is opened and navigated
(the Fetcher is invoked), and with a long article a Record is even
produced. -/
theorem c1_counterexample :
    extSkipCI ("http://a.test/x.PNG".toList) = true ∧
    hasEvent Event.goto (scrapeUrlMain ("http://a.test/x.PNG".toList)
      (.ok (some ⟨none, List.replicate 201 'a', none⟩)) []).2 = true ∧
    (scrapeUrlMain ("http://a.test/x.PNG".toList)
      (.ok (some ⟨none, List.replicate 201 'a', none⟩)) []).1.isSome = true := by
  decide

/-- C1 (amended): a URL matching the image/PDF extension pattern
(optional trailing slash) is classified skip-worthy and `scrapeUrl`
returns null with no page effect — case-insensitively in the single-page
variant, but only for the lower-case suffixes in the multi-page variant
(`main.js`), whose `endsWith` test is case-sensitive. -/
theorem c1_skip_filter (url : List Char) (f : FetchOutcome) (now : List Char) :
    (extSkipCI url = true → scrapeUrlPart0 url f now = (none, [])) ∧
    (extSkipLower url = true → scrapeUrlMain url f now = (none, [])) := by
  constructor
  · intro h
    have hs : part0Skips url = true := by simp [part0Skips, h]
    unfold scrapeUrlPart0
    simp [hs]
  · intro h
    have hs : mainSkips url = true := by simp [mainSkips, h]
    unfold scrapeUrlMain
    simp [hs]

theorem c1_skip_filter_witness :
    scrapeUrlPart0 ("http://a.test/x.PNG".toList) FetchOutcome.err [] =
      (none, []) ∧
    scrapeUrlMain ("http://a.test/x.png".toList) FetchOutcome.err [] =
      (none, []) :=
  ⟨(c1_skip_filter ("http://a.test/x.PNG".toList) .err []).1 (by decide),
   (c1_skip_filter ("http://a.test/x.png".toList) .err []).2 (by decide)⟩

/-! ## Claim C2 -/

set_option maxRecDepth 4000 in
/-- C2 counterexample: an Article whose `textContent` has length exactly
200 yields NO Record in `main.js` (its guard is the strict
`textContent.length > 200`), though the single-page variant does produce
one; the claim's "exactly 200 yields a Record" is false for the
multi-page variant. -/
theorem c2_counterexample :
    (List.replicate 200 'a').length = 200 ∧
    (scrapeUrlMain ("http://a.test/blog/post".toList)
      (.ok (some ⟨none, List.replicate 200 'a', none⟩)) []).1 = none ∧
    (scrapeUrlPart0 ("http://a.test/blog/post".toList)
      (.ok (some ⟨none, List.replicate 200 'a', none⟩)) []).1.isSome = true := by
  decide

/-- C2 (amended): for a parsed Article on a non-skipped URL, the
single-page variant produces a Record iff `textContent.length ≥ 200`
while `main.js` produces one iff `textContent.length > 200`; in
particular an Article shorter than 200 characters never yields a Record,
and one of exactly 200 characters yields a Record only in the single-page
variant. -/
theorem c2_length_threshold (url now : List Char) (a : Article) :
    (scrapeUrlPart0 url (.ok (some a)) now).1.isSome =
      (!part0Skips url && decide (200 ≤ a.textContent.length)) ∧
    (scrapeUrlMain url (.ok (some a)) now).1.isSome =
      (!mainSkips url && decide (200 < a.textContent.length)) := by
  constructor
  · unfold scrapeUrlPart0
    by_cases hs : part0Skips url = true
    · simp [hs]
    · simp only [Bool.not_eq_true] at hs
      by_cases hl : a.textContent.length < 200
      · simp [hs, hl, Nat.not_le.mpr hl]
      · simp [hs, hl, Nat.le_of_not_lt hl]
  · unfold scrapeUrlMain
    by_cases hs : mainSkips url = true
    · simp [hs]
    · simp only [Bool.not_eq_true] at hs
      by_cases hl : a.textContent.length > 200
      · simp [hs, hl]
      · simp [hs, hl, Nat.not_lt.mp hl]

/-! ## Claim C4 -/

/-- C4: the Resource Gate aborts an intercepted request if and only if
its declared resource type is image, stylesheet, font, media or
websocket; every other type — in particular document, script, xhr and
fetch — is continued unmodified. -/
theorem c4_gate_blocks_exactly (t : List Char) :
    (gateAction t = ReqAction.abort ↔
      (t = "image".toList ∨ t = "stylesheet".toList ∨ t = "font".toList ∨
       t = "media".toList ∨ t = "websocket".toList)) ∧
    gateAction ("document".toList) = ReqAction.cont ∧
    gateAction ("script".toList) = ReqAction.cont ∧
    gateAction ("xhr".toList) = ReqAction.cont ∧
    gateAction ("fetch".toList) = ReqAction.cont := by
  refine ⟨⟨fun h => ?_, fun h => ?_⟩, by decide, by decide, by decide,
    by decide⟩
  · by_cases hm : t ∈ blockedTypes
    · simpa [blockedTypes] using hm
    · simp [gateAction, hm] at h
  · have hm : t ∈ blockedTypes := by
      simpa [blockedTypes] using h
    simp [gateAction, hm]

/-! ## Claim C5 -/

/-- C5 counterexample: a `main.js` run that navigates a URL installs no
Resource Gate at all — its trace contains a `goto` but never an
`installGate`, so the "gate re-installed on each per-URL page" half of
the claim is false. -/
theorem c5_counterexample :
    hasEvent Event.goto (runMainTrace ["http://a.test/blog/post".toList]
      (fun _ => FetchOutcome.err) (fun _ => [])) = true ∧
    hasEvent Event.installGate
      (runMainTrace ["http://a.test/blog/post".toList]
        (fun _ => FetchOutcome.err) (fun _ => [])) = false := by
  decide

/-- C5 (amended): in the single-page variant the Resource Gate is
installed on the shared page before any navigation of the whole run; the
multi-page variant (`main.js`) never installs a Resource Gate on any of
its per-URL pages. -/
theorem c5_gate_installation (lines urls : List (List Char))
    (fetch : List Char → FetchOutcome) (clock : List Char → List Char) :
    beforeGoto Event.installGate (runPart0Trace lines fetch clock) = true ∧
    hasEvent Event.installGate (runMainTrace urls fetch clock) = false := by
  constructor
  · rfl
  · induction urls with
    | nil => rfl
    | cons u rest ih =>
      rw [runMainTrace, hasEvent_append, ih]
      rcases scrapeUrlMain_trace_cases u (fetch u) (clock u) with h | h | h <;>
        rw [h] <;> decide


/-! ## Claim C6 -/

/-- C6 counterexample: the single-page variant never sets a viewport —
its whole run trace contains a navigation (`goto`) but no `setViewport`
event, so "both a User-Agent string and a fixed viewport size are set
before navigation" fails for it. -/
theorem c6_counterexample :
    hasEvent Event.goto (runPart0Trace ["http://a.test/blog/post".toList]
      (fun _ => FetchOutcome.err) (fun _ => [])) = true ∧
    hasEvent Event.setViewport
      (runPart0Trace ["http://a.test/blog/post".toList]
        (fun _ => FetchOutcome.err) (fun _ => [])) = false := by
  decide

/-- C6 (amended): in `main.js` both the User-Agent and the fixed viewport
are set on the fresh page before navigation for every URL reaching the
fetch stage; in the single-page variant the User-Agent is set once on the
shared page before any navigation, but no viewport is ever set. -/
theorem c6_ua_viewport (url : List Char) (f : FetchOutcome) (now : List Char)
    (lines : List (List Char)) (fetch : List Char → FetchOutcome)
    (clock : List Char → List Char) :
    beforeGoto Event.setUserAgent (scrapeUrlMain url f now).2 = true ∧
    beforeGoto Event.setViewport (scrapeUrlMain url f now).2 = true ∧
    beforeGoto Event.setUserAgent (runPart0Trace lines fetch clock) = true ∧
    hasEvent Event.setViewport (runPart0Trace lines fetch clock) = false := by
  refine ⟨?_, ?_, rfl, ?_⟩
  · rcases scrapeUrlMain_trace_cases url f now with h | h | h <;> rw [h] <;>
      decide
  · rcases scrapeUrlMain_trace_cases url f now with h | h | h <;> rw [h] <;>
      decide
  · show hasEvent Event.setViewport
      (Event.newPage :: Event.setUserAgent :: Event.installGate ::
        part0LoopTrace lines fetch clock) = false
    simp only [hasEvent, reduceCtorEq, if_false]
    induction lines with
    | nil => rfl
    | cons ln rest ih =>
      rw [part0LoopTrace]
      by_cases he : (trimWs ln).isEmpty = true
      · simp only [he, if_true]
        exact ih
      · simp only [Bool.not_eq_true] at he
        simp only [he, Bool.false_eq_true, if_false]
        rw [hasEvent_append, ih]
        rcases scrapeUrlPart0_trace_cases (trimWs ln) (fetch (trimWs ln))
            (clock (trimWs ln)) with h | h | h <;> rw [h] <;> decide

/-! ## Claim C7 -/

/-- C7: an exception raised inside a URL's per-URL try block (navigation
timeout, navigation error, extraction failure, or any other exception
there) is caught at the per-URL boundary: that URL contributes no Record
and both pipelines process the remaining URLs exactly as if the failing
URL were absent — no per-URL failure terminates the run. -/
theorem c7_per_url_error_isolated (u ln : List Char)
    (rest : List (List Char)) (fetch : List Char → FetchOutcome)
    (clock : List Char → List Char) (h1 : fetch u = FetchOutcome.err)
    (h2 : fetch (trimWs ln) = FetchOutcome.err) :
    runMain (u :: rest) fetch clock = runMain rest fetch clock ∧
    runPart0Records (ln :: rest) fetch clock =
      runPart0Records rest fetch clock := by
  constructor
  · rw [runMain]
    have hnone : (scrapeUrlMain u (fetch u) (clock u)).1 = none := by
      rw [h1]
      unfold scrapeUrlMain
      by_cases hs : mainSkips u = true <;> simp [hs]
    rw [hnone]
  · rw [runPart0Records]
    by_cases he : (trimWs ln).isEmpty = true
    · simp [he]
    · have hnone : (scrapeUrlPart0 (trimWs ln) (fetch (trimWs ln))
          (clock (trimWs ln))).1 = none := by
        rw [h2]
        unfold scrapeUrlPart0
        by_cases hs : part0Skips (trimWs ln) = true <;> simp [hs]
      simp only [Bool.not_eq_true] at he
      simp only [he, Bool.false_eq_true, if_false]
      rw [hnone]

theorem c7_per_url_error_isolated_witness :
    runMain ["http://a.test/x".toList] (fun _ => FetchOutcome.err)
        (fun _ => []) =
      runMain [] (fun _ => FetchOutcome.err) (fun _ => []) ∧
    runPart0Records ["http://a.test/x".toList] (fun _ => FetchOutcome.err)
        (fun _ => []) =
      runPart0Records [] (fun _ => FetchOutcome.err) (fun _ => []) :=
  c7_per_url_error_isolated ("http://a.test/x".toList)
    ("http://a.test/x".toList) [] (fun _ => FetchOutcome.err) (fun _ => [])
    rfl rfl

/-! ## Claim C10 -/

/-- C10: in the multi-page variant every per-URL trace opens exactly as
many pages as it closes, and whenever the trace is non-empty (a page was
opened) its final page effect is the `finally` block's close — on the
success path and on every failure path; so each iteration leaves the
browser with the same set of open pages it started with. -/
theorem c10_page_closed (url : List Char) (f : FetchOutcome)
    (now : List Char) :
    countEvent Event.newPage (scrapeUrlMain url f now).2 =
      countEvent Event.closePage (scrapeUrlMain url f now).2 ∧
    ((scrapeUrlMain url f now).2 = [] ∨
      (scrapeUrlMain url f now).2.getLast? = some Event.closePage) := by
  rcases scrapeUrlMain_trace_cases url f now with h | h | h <;> rw [h]
  · exact ⟨rfl, Or.inl rfl⟩
  · exact ⟨rfl, Or.inr rfl⟩
  · exact ⟨rfl, Or.inr rfl⟩

/-! ## JSON round-trip lemmas -/

theorem hexVal_hexDig (n : Nat) (h : n < 16) : hexVal (hexDig n) = some n := by
  interval_cases n <;> decide

theorem parseHex4_hexDig (a b : Nat) (ha : a < 16) (hb : b < 16)
    (t : List Char) :
    parseHex4 ('0' :: '0' :: hexDig a :: hexDig b :: t) =
      some (a * 16 + b, t) := by
  have h0 : hexVal '0' = some 0 := by decide
  simp only [parseHex4, h0, hexVal_hexDig a ha, hexVal_hexDig b hb]
  have e : ((0 * 16 + 0) * 16 + a) * 16 + b = a * 16 + b := by ring
  rw [e]

theorem parseStringBody_escapeChar (fuel : Nat) (c : Char) (t : List Char) :
    parseStringBody (fuel + 1) (escapeChar c ++ t) =
      (parseStringBody fuel t).map (fun p => (c :: p.1, p.2)) := by
  unfold escapeChar
  by_cases h1 : c = '"'
  · subst h1
    simp [parseStringBody, unescapeStep, Char.reduceEq]
  · rw [if_neg h1]
    by_cases h2 : c = '\\'
    · subst h2
      simp [parseStringBody, unescapeStep, Char.reduceEq]
    · rw [if_neg h2]
      by_cases h3 : c = '\x08'
      · subst h3
        simp [parseStringBody, unescapeStep, Char.reduceEq]
      · rw [if_neg h3]
        by_cases h4 : c = '\x0c'
        · subst h4
          simp [parseStringBody, unescapeStep, Char.reduceEq]
        · rw [if_neg h4]
          by_cases h5 : c = '\n'
          · subst h5
            simp [parseStringBody, unescapeStep, Char.reduceEq]
          · rw [if_neg h5]
            by_cases h6 : c = '\r'
            · subst h6
              simp [parseStringBody, unescapeStep, Char.reduceEq]
            · rw [if_neg h6]
              by_cases h7 : c = '\t'
              · subst h7
                simp [parseStringBody, unescapeStep, Char.reduceEq]
              · rw [if_neg h7]
                by_cases h8 : c.toNat < 32
                · rw [if_pos h8]
                  have hq : c.toNat / 16 < 16 := by omega
                  have hr : c.toNat % 16 < 16 := Nat.mod_lt _ (by omega)
                  simp only [List.cons_append, List.nil_append]
                  simp only [parseStringBody, unescapeStep, Char.reduceEq,
                    reduceIte, parseHex4_hexDig _ _ hq hr]
                  have e : c.toNat / 16 * 16 + c.toNat % 16 = c.toNat := by
                    omega
                  rw [e, Char.ofNat_toNat]
                · rw [if_neg h8]
                  simp only [List.cons_append, List.nil_append]
                  simp only [parseStringBody]
                  rw [if_neg h1, if_neg h2]

theorem one_le_length_escapeChar (c : Char) : 1 ≤ (escapeChar c).length := by
  unfold escapeChar
  split_ifs <;> simp

theorem length_le_escapeList (s : List Char) :
    s.length ≤ (escapeList s).length := by
  induction s with
  | nil => simp [escapeList]
  | cons c s' ih =>
    rw [escapeList, List.flatMap_cons, ← escapeList]
    have := one_le_length_escapeChar c
    simp only [List.length_append, List.length_cons]
    omega

theorem parseStringBody_escapeList (s t : List Char) :
    ∀ fuel, s.length < fuel →
      parseStringBody fuel (escapeList s ++ ('"' :: t)) = some (s, t) := by
  induction s with
  | nil =>
    intro fuel hf
    cases fuel with
    | zero => exact absurd hf (Nat.not_lt_zero _)
    | succ f => simp [escapeList, parseStringBody]
  | cons c s' ih =>
    intro fuel hf
    cases fuel with
    | zero => exact absurd hf (Nat.not_lt_zero _)
    | succ f =>
      have hs' : s'.length < f := by
        simp only [List.length_cons] at hf
        omega
      rw [escapeList, List.flatMap_cons, ← escapeList, List.append_assoc,
        parseStringBody_escapeChar, ih f hs']
      rfl

theorem parseVal_render (v : JVal) (t : List Char) :
    parseVal (renderVal v ++ t) = some (v, t) := by
  cases v with
  | nullv => simp [renderVal, parseVal]
  | strv s =>
    show parseVal ('"' :: ((escapeList s ++ ['"']) ++ t)) = some (.strv s, t)
    rw [List.append_assoc, List.singleton_append]
    simp only [parseVal]
    rw [parseStringBody_escapeList s t _ ?_]
    · rfl
    · have := length_le_escapeList s
      simp only [List.length_append, List.length_cons]
      omega

theorem parsePair_render (k : List Char) (v : JVal) (t : List Char) :
    parsePair (renderPair (k, v) ++ t) = some ((k, v), t) := by
  have e : renderPair (k, v) ++ t =
      '"' :: (escapeList k ++ ('"' :: (':' :: (renderVal v ++ t)))) := by
    simp [renderPair, renderString, List.append_assoc]
  rw [e]
  simp only [parsePair]
  rw [parseStringBody_escapeList k _ _ ?_]
  · simp only []
    rw [parseVal_render]
  · have := length_le_escapeList k
    simp only [List.length_append, List.length_cons]
    omega

theorem parseFieldsAux_render (fs : List (List Char × JVal)) (t : List Char) :
    ∀ fuel, fs ≠ [] → fs.length ≤ fuel →
      parseFieldsAux fuel (renderFields fs ++ ('\x7d' :: t)) = some (fs, t) := by
  induction fs with
  | nil => intro fuel hne _; exact absurd rfl hne
  | cons p fs' ih =>
    intro fuel _ hfuel
    cases fuel with
    | zero => simp at hfuel
    | succ fuel' =>
      obtain ⟨k, v⟩ := p
      cases fs' with
      | nil =>
        show parseFieldsAux (fuel' + 1)
          (renderPair (k, v) ++ ('\x7d' :: t)) = some ([(k, v)], t)
        simp only [parseFieldsAux]
        rw [parsePair_render]
        simp
      | cons q fs'' =>
        have hlen : (q :: fs'').length ≤ fuel' := by
          simp only [List.length_cons] at hfuel ⊢
          omega
        show parseFieldsAux (fuel' + 1)
          ((renderPair (k, v) ++ ',' :: renderFields (q :: fs'')) ++
            ('\x7d' :: t)) = some ((k, v) :: q :: fs'', t)
        rw [List.append_assoc]
        simp only [parseFieldsAux]
        rw [parsePair_render]
        simp only [List.cons_append]
        rw [ih fuel' (by simp) hlen]

theorem length_le_renderFields (fs : List (List Char × JVal)) :
    fs.length ≤ (renderFields fs).length := by
  induction fs with
  | nil => simp [renderFields]
  | cons p fs' ih =>
    obtain ⟨k, v⟩ := p
    cases fs' with
    | nil => simp [renderFields, renderPair, renderString]
    | cons q fs'' =>
      have h1 : 1 ≤ (renderPair (k, v)).length := by
        simp [renderPair, renderString]
      simp only [renderFields, List.length_append, List.length_cons] at ih ⊢
      omega

theorem renderFields_cons_shape (k : List Char) (v : JVal)
    (fs : List (List Char × JVal)) :
    renderFields ((k, v) :: fs) =
      '"' :: ((escapeList k ++ ['"']) ++
        (':' :: renderVal v ++ renderFieldsTail fs)) := by
  cases fs with
  | nil => simp [renderFields, renderFieldsTail, renderPair, renderString]
  | cons q fs' =>
    simp [renderFields, renderFieldsTail, renderPair, renderString,
      List.append_assoc]

theorem parseObj_render (k : List Char) (v : JVal)
    (fs : List (List Char × JVal)) (t : List Char) :
    parseObj (renderObj ((k, v) :: fs) ++ t) = some ((k, v) :: fs, t) := by
  have hshape := renderFields_cons_shape k v fs
  have hinput : renderObj ((k, v) :: fs) ++ t =
      '\x7b' :: (renderFields ((k, v) :: fs) ++ ('\x7d' :: t)) := by
    simp [renderObj, List.append_assoc]
  have hexposed : renderFields ((k, v) :: fs) ++ ('\x7d' :: t) =
      '"' :: ((escapeList k ++ ['"']) ++
        (':' :: renderVal v ++ renderFieldsTail fs) ++ ('\x7d' :: t)) := by
    rw [hshape]
    simp [List.append_assoc]
  have hbound : ((k, v) :: fs).length ≤
      (renderFields ((k, v) :: fs) ++ ('\x7d' :: t)).length := by
    have h1 := length_le_renderFields ((k, v) :: fs)
    simp only [List.length_cons] at h1
    simp only [List.length_append, List.length_cons]
    omega
  rw [hinput]
  obtain ⟨X, hX⟩ : ∃ X, renderFields ((k, v) :: fs) ++ ('\x7d' :: t) =
      '"' :: X := ⟨_, hexposed⟩
  rw [hX]
  show parseFieldsAux (('"' :: X)).length ('"' :: X) = some ((k, v) :: fs, t)
  rw [← hX]
  exact parseFieldsAux_render ((k, v) :: fs) t _ (by simp) hbound

theorem countChar_append (c : Char) (a b : List Char) :
    countChar c (a ++ b) = countChar c a + countChar c b := by
  induction a with
  | nil => simp [countChar]
  | cons x rest ih =>
    simp only [List.cons_append, countChar, List.append_eq, ih]
    omega

theorem hexDig_ne_newline (n : Nat) (h : n < 16) : hexDig n ≠ '\n' := by
  interval_cases n <;> decide

theorem countChar_newline_escapeChar (x : Char) :
    countChar '\n' (escapeChar x) = 0 := by
  unfold escapeChar
  by_cases h1 : x = '"'
  · subst h1; decide
  · rw [if_neg h1]
    by_cases h2 : x = '\\'
    · subst h2; decide
    · rw [if_neg h2]
      by_cases h3 : x = '\x08'
      · subst h3; decide
      · rw [if_neg h3]
        by_cases h4 : x = '\x0c'
        · subst h4; decide
        · rw [if_neg h4]
          by_cases h5 : x = '\n'
          · subst h5; decide
          · rw [if_neg h5]
            by_cases h6 : x = '\r'
            · subst h6; decide
            · rw [if_neg h6]
              by_cases h7 : x = '\t'
              · subst h7; decide
              · rw [if_neg h7]
                by_cases h8 : x.toNat < 32
                · rw [if_pos h8]
                  have hq : x.toNat / 16 < 16 := by omega
                  have hr : x.toNat % 16 < 16 := Nat.mod_lt _ (by omega)
                  have nq := hexDig_ne_newline _ hq
                  have nr := hexDig_ne_newline _ hr
                  simp [countChar, nq, nr]
                · rw [if_neg h8]
                  simp [countChar, h5]

theorem countChar_newline_escapeList (s : List Char) :
    countChar '\n' (escapeList s) = 0 := by
  induction s with
  | nil => simp [escapeList, countChar]
  | cons c s' ih =>
    rw [escapeList, List.flatMap_cons, ← escapeList, countChar_append,
      countChar_newline_escapeChar, ih]

theorem countChar_newline_renderString (s : List Char) :
    countChar '\n' (renderString s) = 0 := by
  rw [renderString]
  simp [countChar, countChar_append, countChar_newline_escapeList]

theorem countChar_newline_renderVal (v : JVal) :
    countChar '\n' (renderVal v) = 0 := by
  cases v with
  | nullv => decide
  | strv s => exact countChar_newline_renderString s

theorem countChar_newline_renderPair (p : List Char × JVal) :
    countChar '\n' (renderPair p) = 0 := by
  rw [renderPair, countChar_append, countChar_newline_renderString]
  simp [countChar, countChar_newline_renderVal]

theorem countChar_newline_renderFields (fs : List (List Char × JVal)) :
    countChar '\n' (renderFields fs) = 0 := by
  induction fs with
  | nil => simp [renderFields, countChar]
  | cons p fs' ih =>
    cases fs' with
    | nil =>
      show countChar '\n' (renderPair p) = 0
      exact countChar_newline_renderPair p
    | cons q fs'' =>
      show countChar '\n'
        (renderPair p ++ ',' :: renderFields (q :: fs'')) = 0
      rw [countChar_append, countChar_newline_renderPair]
      simpa [countChar] using ih

theorem countChar_newline_stringify (r : Record) :
    countChar '\n' (stringifyRecord r) = 0 := by
  show countChar '\n'
    ('\x7b' :: (renderFields (recordFields r) ++ ['\x7d'])) = 0
  simp [countChar, countChar_append, countChar_newline_escapeList,
    countChar_newline_renderVal, countChar_newline_renderFields]

/-! ## Claim C8 -/

/-- C8: every line appended to the Sink is the JSON serialization of the
entry object followed by exactly one newline: parsing the line back
returns exactly the record's five fields url, title, content, site_name,
scraped_at — no more and no fewer — and the terminating newline is the
only newline in the line and its final character. -/
theorem c8_sink_line_roundtrip (r : Record) :
    parseObj (sinkLine r) = some (recordFields r, ['\n']) ∧
    (recordFields r).map Prod.fst =
      ["url".toList, "title".toList, "content".toList, "site_name".toList,
        "scraped_at".toList] ∧
    countChar '\n' (sinkLine r) = 1 ∧
    (sinkLine r).getLast? = some '\n' := by
  refine ⟨?_, rfl, ?_, ?_⟩
  · show parseObj (renderObj (recordFields r) ++ ['\n']) = _
    exact parseObj_render _ _ _ _
  · show countChar '\n' (stringifyRecord r ++ ['\n']) = 1
    rw [countChar_append, countChar_newline_stringify]
    decide
  · show (stringifyRecord r ++ ['\n']).getLast? = some '\n'
    exact List.getLast?_concat _

end Scraper
